import Mathlib

/-!
Verification of the version-derivation core of `update.py`.

The repository's versioning core (`parse_tags`, `version_tuple`,
`version_join`, `git_describe`, the tag phase of `get_src`, and the
per-module loop of `main`) is embedded shallowly below.  Version strings
are parsed by the external `packaging` library (PEP 440); that parser is
modelled from the spec (section 4.1) for the fragment the program
exercises: an optional `v`, a dotted numeric release, an optional
pre-release (`rc`/`a`/`b`/... with a number), an optional post-release
(either `-N` or `.postN`/`-postN`/`rev`/`r` forms) and an optional `dev`
segment.  Epochs (`N!`) and local segments (`+...`) are outside the
modelled fragment.  Python exceptions are modelled with `Option`/`Except`.
-/

namespace UpdatePy

/-- ASCII decimal digit test, as the regex class `[0-9]`. -/
def isDigitC (c : Char) : Bool := 48 ≤ c.toNat && c.toNat ≤ 57

/-- ASCII whitespace test, as Python `str.strip` / the regex `\s`. -/
def isSpaceC (c : Char) : Bool :=
  c.toNat = 32 || c.toNat = 9 || c.toNat = 10 || c.toNat = 11 || c.toNat = 12 || c.toNat = 13

/-- ASCII lower-casing, as Python `str.lower` on ASCII input (the
`packaging` regexes are compiled with IGNORECASE). -/
def toLowerC (c : Char) : Char :=
  if 65 ≤ c.toNat ∧ c.toNat ≤ 90 then Char.ofNat (c.toNat + 32) else c

/-- The decimal digit character for `n < 10` (as Python `str` of a digit). -/
def digitChar (n : Nat) : Char :=
  match n with
  | 0 => '0' | 1 => '1' | 2 => '2' | 3 => '3' | 4 => '4'
  | 5 => '5' | 6 => '6' | 7 => '7' | 8 => '8' | _ => '9'

/-- Fuel-driven decimal printing (most significant digit first). -/
def natDigitsF : Nat → Nat → List Char
  | 0, _ => []
  | f + 1, n =>
    if n < 10 then [digitChar n]
    else natDigitsF f (n / 10) ++ [digitChar (n % 10)]

/-- Decimal digits of `n`, as Python `str` of a non-negative int. -/
def natDigits (n : Nat) : List Char := natDigitsF (n + 1) n

/-- Decimal rendering of `n` as a string. -/
def natToStr (n : Nat) : String := ⟨natDigits n⟩

/-- The character form of the continuation `.N.N...` of a dotted
release (specification scaffolding for the round-trip proofs). -/
def relRest : List Nat → List Char
  | [] => []
  | n :: ns => '.' :: (natDigits n ++ relRest ns)

/-- Accumulating decimal value of a digit string (as `int(...)`). -/
def digitsVal : Nat → List Char → Nat
  | acc, [] => acc
  | acc, c :: cs => digitsVal (acc * 10 + (c.toNat - 48)) cs

/-- Consume a maximal run of digits, accumulating their value. -/
def readNatAux : Nat → List Char → Nat × List Char
  | acc, [] => (acc, [])
  | acc, c :: cs =>
    if isDigitC c then readNatAux (acc * 10 + (c.toNat - 48)) cs
    else (acc, c :: cs)

/-- Read a non-empty run of digits, as the regex `[0-9]+`. -/
def readNum (cs : List Char) : Option (Nat × List Char) :=
  match cs with
  | c :: cs' => if isDigitC c then some (readNatAux (c.toNat - 48) cs') else none
  | [] => none

/-- Consume at most one separator character, as the regex `[-_\.]?`. -/
def dropSep (cs : List Char) : List Char :=
  match cs with
  | c :: rest => if c = '-' ∨ c = '_' ∨ c = '.' then rest else cs
  | [] => []

/-- Whether the word `w` is a prefix of the input. -/
def wordMatch : List Char → List Char → Bool
  | [], _ => true
  | w :: ws, cs =>
    match cs with
    | [] => false
    | c :: cs' => w == c && wordMatch ws cs'

/-- Match one word of a table against a prefix of the input, returning
the normalized spelling; longest candidates are listed first, mirroring
the backtracking behaviour of the PEP 440 alternation. -/
def matchWord : List (List Char × String) → List Char → Option (String × List Char)
  | [], _ => none
  | (w, norm) :: ws, cs =>
    if wordMatch w cs then some (norm, cs.drop w.length) else matchWord ws cs

/-- Pre-release spellings and their normalizations (PEP 440). -/
def preTable : List (List Char × String) :=
  [("preview".data, "rc"), ("alpha".data, "a"), ("beta".data, "b"),
   ("pre".data, "rc"), ("rc".data, "rc"),
   ("a".data, "a"), ("b".data, "b"), ("c".data, "rc")]

/-- Post-release spellings (PEP 440); the value is not used. -/
def postTable : List (List Char × String) :=
  [("post".data, "post"), ("rev".data, "post"), ("r".data, "post")]

/-- Dev-release spelling (PEP 440). -/
def devTable : List (List Char × String) := [("dev".data, "dev")]

/-- A parsed PEP 440 version as `packaging.version.Version` stores it:
release components, optional normalized pre-release letter and number,
optional post-release count, optional dev count.  `Modelled from the
spec:` the repository delegates parsing to the external `packaging`
library; epoch and local segments are not modelled. -/
structure Version where
  release : List Nat
  pre : Option (String × Nat)
  post : Option Nat
  dev : Option Nat
deriving DecidableEq

/-- Parse the remaining dotted release components, as `(\.[0-9]+)*`. -/
def parseRelAuxF : Nat → List Nat → List Char → List Nat × List Char
  | 0, acc, cs => (acc, cs)
  | f + 1, acc, cs =>
    match cs with
    | c1 :: c2 :: cs' =>
      if c1 = '.' ∧ isDigitC c2 then
        let r := readNatAux (c2.toNat - 48) cs'
        parseRelAuxF f (acc ++ [r.1]) r.2
      else (acc, cs)
    | _ => (acc, cs)

/-- Parse an optional pre-release segment. -/
def parsePre (cs : List Char) : Option ((String × Nat) × List Char) :=
  match matchWord preTable (dropSep cs) with
  | none => none
  | some (w, rest) =>
    let rest1 := dropSep rest
    match readNum rest1 with
    | some (n, rest2) => some ((w, n), rest2)
    | none => some ((w, 0), rest1)

/-- Parse an optional explicit post-release segment (`.postN` etc.). -/
def parsePostWord (cs : List Char) : Option (Nat × List Char) :=
  match matchWord postTable (dropSep cs) with
  | none => none
  | some (_, rest) =>
    let rest1 := dropSep rest
    match readNum rest1 with
    | some (n, rest2) => some (n, rest2)
    | none => some (0, rest1)

/-- Parse an optional post-release segment, trying the implicit `-N`
form first, as the PEP 440 alternation does. -/
def parsePost (cs : List Char) : Option (Nat × List Char) :=
  match cs with
  | c :: rest =>
    if c = '-' then
      match readNum rest with
      | some (n, r2) => some (n, r2)
      | none => parsePostWord cs
    else parsePostWord cs
  | [] => none

/-- Parse an optional dev segment. -/
def parseDev (cs : List Char) : Option (Nat × List Char) :=
  match matchWord devTable (dropSep cs) with
  | none => none
  | some (_, rest) =>
    let rest1 := dropSep rest
    match readNum rest1 with
    | some (n, rest2) => some (n, rest2)
    | none => some (0, rest1)

/-- Strip surrounding whitespace, as Python `str.strip` / the anchors
`^\s*`, `\s*$`. -/
def pyStripChars (cs : List Char) : List Char :=
  ((cs.dropWhile isSpaceC).reverse.dropWhile isSpaceC).reverse

/-- Parse the optional pre/post/dev suffixes after the release and
require the input to be exhausted (the regex is anchored). -/
def parseAfterRel (rel : List Nat) (cs : List Char) : Option Version :=
  let preR :=
    match parsePre cs with
    | some (pv, r) => ((some pv : Option (String × Nat)), r)
    | none => (none, cs)
  let postR :=
    match parsePost preR.2 with
    | some (pn, r) => ((some pn : Option Nat), r)
    | none => (none, preR.2)
  let devR :=
    match parseDev postR.2 with
    | some (dn, r) => ((some dn : Option Nat), r)
    | none => (none, postR.2)
  if devR.2 = [] then some ⟨rel, preR.1, postR.1, devR.1⟩ else none

/-- Parse the release and its suffixes from the normalized input. -/
def parseCore (cs : List Char) : Option Version :=
  match readNum cs with
  | none => none
  | some (n1, r1) =>
    let rel := parseRelAuxF (r1.length + 1) [n1] r1
    parseAfterRel rel.1 rel.2

/-- Parse a version string into a `Version`, returning `none` where
`packaging` would raise `InvalidVersion` (or yield a legacy version):
strip surrounding whitespace, lower-case, drop one leading `v`, then
parse release and suffixes. -/
def parseChars (cs0 : List Char) : Option Version :=
  let cs1 := (pyStripChars cs0).map toLowerC
  match cs1 with
  | c :: rest => if c = 'v' then parseCore rest else parseCore (c :: rest)
  | [] => parseCore []

/-- `version.parse` on a string. -/
def parse (s : String) : Option Version := parseChars s.data

/-- Three-way comparison on naturals. -/
def cmpNat (a b : Nat) : Ordering :=
  if a < b then .lt else if b < a then .gt else .eq

/-- Lexicographic comparison of release tuples, as Python tuple
comparison of int tuples (a strict prefix is smaller). -/
def listCmpNat : List Nat → List Nat → Ordering
  | [], [] => .eq
  | [], _ :: _ => .lt
  | _ :: _, [] => .gt
  | a :: as, b :: bs => (cmpNat a b).then (listCmpNat as bs)

/-- Lexicographic comparison of char lists by code point, as Python
string comparison. -/
def charListCmp : List Char → List Char → Ordering
  | [], [] => .eq
  | [], _ :: _ => .lt
  | _ :: _, [] => .gt
  | a :: as, b :: bs => (cmpNat a.toNat b.toNat).then (charListCmp as bs)

/-- Release key of `_cmpkey`: trailing zero components are dropped. -/
def stripZeros (r : List Nat) : List Nat := (r.reverse.dropWhile (· = 0)).reverse

/-- Pre-release slot of `_cmpkey`: `NegativeInfinity` when only a dev
segment is present, `Infinity` when there is no pre-release, otherwise
the (letter, number) pair. -/
inductive PreKey
  | negInf
  | val (l : String) (n : Nat)
  | inf
deriving DecidableEq

/-- The pre-release key of a version, as `packaging`'s `_cmpkey`. -/
def preKeyOf (v : Version) : PreKey :=
  if v.pre = none ∧ v.post = none ∧ v.dev ≠ none then .negInf
  else
    match v.pre with
    | none => .inf
    | some (l, n) => .val l n

/-- Comparison of pre-release keys. -/
def preKeyCmp : PreKey → PreKey → Ordering
  | .negInf, .negInf => .eq
  | .negInf, _ => .lt
  | _, .negInf => .gt
  | .inf, .inf => .eq
  | .inf, _ => .gt
  | _, .inf => .lt
  | .val l1 n1, .val l2 n2 => (charListCmp l1.data l2.data).then (cmpNat n1 n2)

/-- Comparison of post-release keys: absent compares below present. -/
def postKeyCmp : Option Nat → Option Nat → Ordering
  | none, none => .eq
  | none, some _ => .lt
  | some _, none => .gt
  | some a, some b => cmpNat a b

/-- Comparison of dev keys: absent (`Infinity`) compares above present. -/
def devKeyCmp : Option Nat → Option Nat → Ordering
  | none, none => .eq
  | none, some _ => .gt
  | some _, none => .lt
  | some a, some b => cmpNat a b

/-- Total comparison of versions, as `packaging`'s `_cmpkey` ordering
(epoch and local are not modelled and compare equal). -/
def verCmp (a b : Version) : Ordering :=
  (listCmpNat (stripZeros a.release) (stripZeros b.release)).then
    ((preKeyCmp (preKeyOf a) (preKeyOf b)).then
      ((postKeyCmp a.post b.post).then (devKeyCmp a.dev b.dev)))

/-- Python `<` on the `(Version, raw-tag)` tuples that `parse_tags`
sorts: compare versions first, tie-break on the raw string. -/
def tagLt (x y : Version × String) : Bool :=
  match verCmp x.1 y.1 with
  | .lt => true
  | .gt => false
  | .eq => (charListCmp x.2.data y.2.data) = .lt

/-- Stable insertion of an element into a sorted list: it lands after
every element it is not strictly below, matching Python's stable sort. -/
def insertTag (x : Version × String) : List (Version × String) → List (Version × String)
  | [] => [x]
  | y :: ys => if tagLt x y then x :: y :: ys else y :: insertTag x ys

/-- Stable ascending sort of tag pairs, as `tags.sort()`. -/
def sortTags (l : List (Version × String)) : List (Version × String) :=
  l.foldl (fun acc x => insertTag x acc) []

/-- Truncate at the first occurrence of `-g` (a describe-style commit
hash suffix), as `nt[:nt.find('-g')]`. -/
def cutDashG : List Char → List Char
  | [] => []
  | '-' :: 'g' :: _ => []
  | c :: cs => c :: cutDashG cs

/-- The per-line tag normalization of `parse_tags`: strip whitespace,
strip one leading `v` (note: the source slices the unstripped string,
`nt = t[1:]`), and drop any `-g...` suffix. -/
def transformTag (t : String) : String :=
  let nt := (⟨pyStripChars t.data⟩ : String)
  let nt :=
    match nt.data with
    | c :: _ => if c = 'v' then (⟨t.data.drop 1⟩ : String) else nt
    | [] => nt
  ⟨cutDashG nt.data⟩

/-- Python `str.splitlines` for newline-separated input. -/
def splitLinesAux : List Char → List Char → List String
  | cur, [] => if cur.isEmpty then [] else [⟨cur.reverse⟩]
  | cur, c :: rest =>
    if c = '\n' then (⟨cur.reverse⟩ : String) :: splitLinesAux [] rest
    else splitLinesAux (c :: cur) rest

/-- Python `str.splitlines` on a string (newlines only). -/
def pySplitlines (s : String) : List String := splitLinesAux [] s.data

/-- The collection loop of `parse_tags`: each line is normalized and
parsed; parse failures (including legacy versions) are routed to the
ignored list carrying the original string, never raised. -/
def collectTags : List String → List (Version × String) × List (String × Option Version)
  | [] => ([], [])
  | t :: rest =>
    let r := collectTags rest
    match parse (transformTag t) with
    | some v => ((v, t) :: r.1, r.2)
    | none => (r.1, (t, none) :: r.2)

/-- `parse_tags` on a list of tag lines: collect, then sort the valid
pairs ascending. -/
def parse_tags_lines (lines : List String) :
    List (Version × String) × List (String × Option Version) :=
  let r := collectTags lines
  (sortTags r.1, r.2)

/-- `parse_tags(d, ignored=True)` on the raw `git tag --list` output. -/
def parse_tags (d : String) :
    List (Version × String) × List (String × Option Version) :=
  parse_tags_lines (pySplitlines d)

/-- `version_tuple`: the release components followed by the post slot;
no padding or truncation. -/
def version_tuple (v : Version) : List (Option Nat) :=
  v.release.map some ++ [v.post]

/-- The element-wise sum over the zipped reversed tuples of
`version_join`: positions where both sides are `None` are skipped,
a single `None` is treated as 0. -/
def combineAux : List (Option Nat) → List (Option Nat) → List Nat
  | x :: xs, y :: ys =>
    if x = none ∧ y = none then combineAux xs ys
    else (x.getD 0 + y.getD 0) :: combineAux xs ys
  | _, _ => []

/-- The summed list `vo` of `version_join`: reverse both version
tuples, right-pad the shorter with zeros, sum element-wise. -/
def joinVo (a b : Version) : List Nat :=
  let vta := (version_tuple a).reverse
  let vtb := (version_tuple b).reverse
  let n := max vta.length vtb.length
  combineAux (vta ++ List.replicate (n - vta.length) (some 0))
    (vtb ++ List.replicate (n - vtb.length) (some 0))

/-- Python `sep.join(parts)`. -/
def pyJoin (sep : String) : List String → String
  | [] => ""
  | x :: xs => xs.foldl (fun acc y => acc ++ sep ++ y) x

/-- `version_join`: build the composite version string
`".".join(vo[1:][::-1]) + ".post" + vo[0]` and parse it; `none` models
the `InvalidVersion` (or `IndexError`) the source would raise. -/
def version_join (a b : Version) : Option Version :=
  match joinVo a b with
  | [] => none
  | v0 :: vrest =>
    parse (pyJoin "." (vrest.reverse.map natToStr) ++ ".post" ++ natToStr v0)

/-- Python exceptions that the modelled code paths can raise. -/
inductive PyErr
  | assertionError
  | calledProcessError
  | valueError
  | invalidVersion
  | nameError
deriving DecidableEq

/-- A bare git repository as the versioning core sees it: its tag store
(name, target hash, annotation message), its commit log oldest-first
(as `git log --reverse` prints it), and the collaborator's answer to
`git describe` on the module branch (`none` when no tag matches). -/
structure GitRepo where
  tags : List (String × String × Option String)
  commits : List (String × String)
  describeOut : Option String
deriving DecidableEq

/-- The lines of `git tag --list`. -/
def tagListOutput (repo : GitRepo) : List String := repo.tags.map (·.1)

/-- `git rev-parse` on a tag name. -/
def get_hash (repo : GitRepo) (ref : String) : Option String :=
  (repo.tags.find? (fun e => e.1 == ref)).map (fun e => e.2.1)

/-- `get_tags`: parse and sort the tag list, then map each valid tag to
its version and hash (insertion order of the `OrderedDict` is the
sorted order); ignored tags are returned alongside. -/
def get_tags (repo : GitRepo) :
    List (String × Version × Option String) × List (String × Option Version) :=
  let pt := parse_tags_lines (tagListOutput repo)
  (pt.1.map (fun vt => (vt.2, vt.1, get_hash repo vt.2)), pt.2)

/-- The fixed annotation message of the synthesized baseline tag. -/
def baselineMsg : String := "Dummy version on first commit so git-describe works"

/-- The canonical baseline value `0.0`: release `[0, 0]`, no pre, post
or dev component (what `v0.0` parses to). -/
def baselineVersion : Version := ⟨[0, 0], none, none, none⟩

/-- The tag phase of `get_src`: list and parse the tags; if no tag named
`v0.0` is present, create an annotated `v0.0` on the first commit of
`git log --reverse` and re-run `get_tags`; finally each ignored tag is
deleted once (the returned string list is the sequence of
`git tag --delete` arguments).  An empty commit log leaves the loop
variable unbound in the source (`NameError`). -/
def get_src_tags (repo : GitRepo) :
    Except PyErr
      (GitRepo × List (String × Version × Option String) ×
        List (String × Option Version) × List String) :=
  let r := get_tags repo
  if "v0.0" ∈ r.1.map Prod.fst then
    .ok (repo, r.1, r.2, r.2.map Prod.fst)
  else
    match repo.commits with
    | [] => .error .nameError
    | (h0, _) :: _ =>
      let repo2 : GitRepo :=
        { repo with tags := repo.tags ++ [("v0.0", h0, some baselineMsg)] }
      let r2 := get_tags repo2
      .ok (repo2, r2.1, r2.2, r2.2.map Prod.fst)

/-- Python `str.split('-')`. -/
def splitDashAux : List Char → List Char → List String
  | cur, [] => [⟨cur.reverse⟩]
  | cur, c :: rest =>
    if c = '-' then (⟨cur.reverse⟩ : String) :: splitDashAux [] rest
    else splitDashAux (c :: cur) rest

/-- Python `str.split('-')` on a string. -/
def splitDash (s : String) : List String := splitDashAux [] s.data

/-- `git_describe`: take the collaborator's `TAG-DISTANCE-gHASH` answer
(absent answer models the nonzero exit of `git describe`, raised as
`CalledProcessError`), strip a leading `v`, split off the trailing two
`-` fields and parse `TAG-DISTANCE`; fewer than three fields would make
the unpacking raise `ValueError`. -/
def git_describe (descOut : Option String) : Except PyErr (String × Version) :=
  match descOut with
  | none => .error .calledProcessError
  | some d =>
    let o :=
      match d.data with
      | c :: _ => if c = 'v' then (⟨d.data.drop 1⟩ : String) else d
      | [] => d
    let ps := splitDash o
    if 3 ≤ ps.length then
      let t := pyJoin "-" (ps.take (ps.length - 2))
      let c := (ps.drop (ps.length - 2)).headD ""
      match parse (t ++ "-" ++ c) with
      | some v => .ok (d, v)
      | none => .error .invalidVersion
    else .error .valueError

/-- `get_src` (versioning part): run the tag phase, then describe the
branch to obtain the data version. -/
def get_src_model (repo : GitRepo) : Except PyErr (GitRepo × String × Version) :=
  match get_src_tags repo with
  | .error e => .error e
  | .ok (repo2, _tags, _ign, _dels) =>
    match git_describe repo2.describeOut with
    | .error e => .error e
    | .ok (d, vdesc) => .ok (repo2, d, vdesc)

/-- A module's version source: an upstream repository (`src` key) or a
hand-provided describe string and hash. -/
inductive ModSrc
  | fromRepo (repo : GitRepo)
  | literal (gitDescribeStr : String) (gitHash : String)
deriving DecidableEq

/-- The per-module body of `main`: resolve the data version (from the
repository or from the hand-provided describe string, asserting that it
yields exactly one version), then compose it with the tool version.
The data version string written to `module_data` re-parses to the same
value (spec section 8 round-trip), so the composition is modelled
directly on the parsed value. -/
def processModule (toolV : Version) (m : ModSrc) : Except PyErr Version :=
  match m with
  | .fromRepo repo =>
    match get_src_model repo with
    | .error e => .error e
    | .ok (_, _, vdesc) =>
      match version_join toolV vdesc with
      | some v => .ok v
      | none => .error .invalidVersion
  | .literal d _h =>
    match (parse_tags_lines (pySplitlines d)).1 with
    | [(vdesc, _t)] =>
      match version_join toolV vdesc with
      | some v => .ok v
      | none => .error .invalidVersion
    | _ => .error .assertionError

/-- The module loop of `main`: modules are processed in declaration
order; there is no exception handling around the body, so an error in
one module propagates and ends the whole run. -/
def mainLoop (toolV : Version) : List ModSrc → Except PyErr (List Version)
  | [] => .ok []
  | m :: rest =>
    match processModule toolV m with
    | .error e => .error e
    | .ok v =>
      match mainLoop toolV rest with
      | .ok vs => .ok (v :: vs)
      | .error e => .error e

theorem combineAux_comm (xs ys : List (Option Nat)) :
    combineAux xs ys = combineAux ys xs := by
  induction xs generalizing ys with
  | nil => cases ys <;> rfl
  | cons x xs ih =>
    cases ys with
    | nil => rfl
    | cons y ys =>
      simp only [combineAux]
      by_cases hx : x = none <;> by_cases hy : y = none <;>
        simp [hx, hy, Nat.add_comm, ih]

theorem joinVo_comm (a b : Version) : joinVo a b = joinVo b a := by
  simp only [joinVo]
  rw [Nat.max_comm ((version_tuple b).reverse.length)
    ((version_tuple a).reverse.length)]
  exact combineAux_comm _ _

/-- C1: composing the version `1.2` with `3.4.5` yields exactly the
version `3.5.post7`, following the documented reversal/padding
alignment.  -/
theorem c1_compose_worked_example :
    ((parse "1.2").bind fun a => (parse "3.4.5").bind fun b => version_join a b) =
      parse "3.5.post7" ∧
    parse "3.5.post7" = some ⟨[3, 5], none, some 7, none⟩ :=
  ⟨rfl, rfl⟩

/-- C2: composition is commutative in result value for every pair of
`Version`s, including every pair on which it is defined. -/
theorem c2_compose_comm (a b : Version) :
    version_join a b = version_join b a := by
  unfold version_join
  rw [joinVo_comm]

/-- C3: reconciling the five-tag list of the doctest yields the valid
tags sorted ascending in exactly the documented order, with the
pre-release below its base release and post-releases above. -/
theorem c3_reconcile_sorted_order :
    parse_tags "v0.0\nv0.0.0\nv0.0.0-rc1\nv1.0.1-265-g5f0c7a7\nv0.0-7004-g1cf70ea2\n" =
      ([(⟨[0, 0, 0], some ("rc", 1), none, none⟩, "v0.0.0-rc1"),
        (⟨[0, 0], none, none, none⟩, "v0.0"),
        (⟨[0, 0, 0], none, none, none⟩, "v0.0.0"),
        (⟨[0, 0], none, some 7004, none⟩, "v0.0-7004-g1cf70ea2"),
        (⟨[1, 0, 1], none, some 265, none⟩, "v1.0.1-265-g5f0c7a7")], []) :=
  rfl

/-- C9: the tuple encoder performs no padding or truncation:
`version_tuple (parse "1.2.3")` is `(1, 2, 3, None)`, a two-component
release such as `parse "0.0"` encodes to `(0, 0, None)`, and in general
the tuple has exactly the release components followed by one post
slot. -/
theorem c9_tuple_encoder_no_padding :
    ((parse "1.2.3").map version_tuple = some [some 1, some 2, some 3, none]) ∧
    ((parse "0.0").map version_tuple = some [some 0, some 0, none]) ∧
    (∀ v : Version, (version_tuple v).length = v.release.length + 1) := by
  refine ⟨rfl, rfl, fun v => ?_⟩
  simp [version_tuple]

/-- C7 counterexample: two raw tags with equal parsed versions are NOT
kept in first-seen order; on input order `v0.0.0, v0.0` the sorted
valid set lists `v0.0` first. -/
theorem c7_counterexample :
    (parse_tags_lines ["v0.0.0", "v0.0"]).1.map Prod.snd ≠ ["v0.0.0", "v0.0"] ∧
    (parse_tags_lines ["v0.0.0", "v0.0"]).1.map Prod.snd = ["v0.0", "v0.0.0"] := by
  exact ⟨by decide, rfl⟩

/-- C8 counterexample: `parse "1"` is a valid single-component version,
yet composing it with itself raises (`Version(".post2")` is invalid),
modelled as `none`. -/
theorem c8_counterexample :
    parse "1" = some ⟨[1], none, none, none⟩ ∧
    version_join ⟨[1], none, none, none⟩ ⟨[1], none, none, none⟩ = none :=
  ⟨rfl, rfl⟩

/-- C5 counterexample: a module whose hand-provided describe string
parses to two versions fails its assertion, and the whole run aborts
with that error instead of skipping to the next declared module (which
alone would succeed). -/
theorem c5_counterexample :
    processModule ⟨[0, 1], none, some 5, none⟩ (.literal "1.0\n2.0" "h") =
      .error .assertionError ∧
    mainLoop ⟨[0, 1], none, some 5, none⟩
      [.literal "1.0\n2.0" "h", .literal "1.0-3-gabc" "h2"] =
      .error .assertionError ∧
    mainLoop ⟨[0, 1], none, some 5, none⟩ [.literal "1.0-3-gabc" "h2"] =
      .ok [⟨[1, 1], none, some 8, none⟩] :=
  ⟨rfl, rfl, rfl⟩

/-- C5 amended: an error raised while processing one module is not
caught; the loop of `main` propagates it, so no later module is
processed. -/
theorem c5_module_error_aborts_run (toolV : Version) (m : ModSrc)
    (rest : List ModSrc) (e : PyErr)
    (h : processModule toolV m = .error e) :
    mainLoop toolV (m :: rest) = .error e := by
  simp [mainLoop, h]

theorem c5_module_error_aborts_run_witness :
    processModule ⟨[0, 1], none, some 5, none⟩ (.literal "x" "h") =
      .error .assertionError ∧
    mainLoop ⟨[0, 1], none, some 5, none⟩
      [.literal "x" "h", .literal "1.0-3-gabc" "h2"] = .error .assertionError :=
  ⟨rfl, c5_module_error_aborts_run _ _ _ _ rfl⟩

theorem mem_insertTag {x y : Version × String} {l : List (Version × String)} :
    x ∈ insertTag y l ↔ x = y ∨ x ∈ l := by
  induction l with
  | nil => simp [insertTag]
  | cons z zs ih =>
    simp only [insertTag]
    split
    · simp [List.mem_cons]
    · simp only [List.mem_cons, ih]
      tauto

theorem mem_foldl_insertTag (l : List (Version × String))
    (acc : List (Version × String)) (x : Version × String) :
    x ∈ l.foldl (fun acc y => insertTag y acc) acc ↔ x ∈ acc ∨ x ∈ l := by
  induction l generalizing acc with
  | nil => simp
  | cons y ys ih =>
    simp only [List.foldl_cons, ih, mem_insertTag, List.mem_cons]
    tauto

theorem mem_sortTags {x : Version × String} {l : List (Version × String)} :
    x ∈ sortTags l ↔ x ∈ l := by
  simp [sortTags, mem_foldl_insertTag]

theorem collect_valid_mem {lines : List String} {v : Version} {t : String}
    (h : (v, t) ∈ (collectTags lines).1) :
    t ∈ lines ∧ parse (transformTag t) = some v := by
  induction lines with
  | nil => simp [collectTags] at h
  | cons s rest ih =>
    simp only [collectTags] at h
    cases hp : parse (transformTag s) with
    | some w =>
      rw [hp] at h
      rcases List.mem_cons.mp h with h1 | h1
      · obtain ⟨hv, ht⟩ := Prod.mk.injEq .. ▸ h1
        subst ht
        exact ⟨List.mem_cons_self _ _, hv ▸ hp⟩
      · obtain ⟨h2, h3⟩ := ih h1
        exact ⟨List.mem_cons_of_mem _ h2, h3⟩
    | none =>
      rw [hp] at h
      obtain ⟨h2, h3⟩ := ih h
      exact ⟨List.mem_cons_of_mem _ h2, h3⟩

theorem collect_valid_of_mem {lines : List String} {v : Version} {t : String}
    (ht : t ∈ lines) (hp : parse (transformTag t) = some v) :
    (v, t) ∈ (collectTags lines).1 := by
  induction lines with
  | nil => simp at ht
  | cons s rest ih =>
    simp only [collectTags]
    rcases List.mem_cons.mp ht with rfl | hmem
    · rw [hp]
      exact List.mem_cons_self _ _
    · cases hq : parse (transformTag s) with
      | some w => exact List.mem_cons_of_mem _ (ih hmem)
      | none => exact ih hmem

theorem parse_tags_lines_valid_mem {lines : List String} {v : Version} {t : String}
    (h : (v, t) ∈ (parse_tags_lines lines).1) :
    t ∈ lines ∧ parse (transformTag t) = some v :=
  collect_valid_mem (mem_sortTags.mp h)

theorem parse_tags_lines_valid_of_mem {lines : List String} {v : Version} {t : String}
    (ht : t ∈ lines) (hp : parse (transformTag t) = some v) :
    (v, t) ∈ (parse_tags_lines lines).1 :=
  mem_sortTags.mpr (collect_valid_of_mem ht hp)

theorem count_map_pair (l : List String) (t : String) :
    (l.map fun s => (s, (none : Option Version))).count (t, (none : Option Version)) =
      l.count t := by
  induction l with
  | nil => rfl
  | cons s rest ih =>
    simp only [List.map_cons, List.count_cons, ih]
    by_cases h : s = t <;> simp [h]

theorem collect_itags_eq (lines : List String) :
    (collectTags lines).2 =
      (lines.filter fun s => (parse (transformTag s)).isNone).map
        fun s => (s, (none : Option Version)) := by
  induction lines with
  | nil => rfl
  | cons t rest ih =>
    simp only [collectTags, List.filter_cons]
    cases h : parse (transformTag t) with
    | some v => simp [h, ih]
    | none => simp [h, ih]

/-- C6: a raw tag whose normalized form does not parse is routed to the
ignored list carrying the original string (never to the valid set, and
with no exception: the collection is total), and the
`git tag --delete` sequence issued over the ignored list deletes it
exactly once. -/
theorem c6_malformed_tag_handling (lines : List String) (t : String)
    (hbad : parse (transformTag t) = none) (honce : lines.count t = 1) :
    ((parse_tags_lines lines).2.count (t, (none : Option Version)) = 1) ∧
    (∀ v : Version, (v, t) ∉ (parse_tags_lines lines).1) ∧
    (((parse_tags_lines lines).2.map Prod.fst).count t = 1) := by
  have h2 : (parse_tags_lines lines).2 =
      (lines.filter fun s => (parse (transformTag s)).isNone).map
        fun s => (s, (none : Option Version)) := collect_itags_eq lines
  have hkeep : ((fun s => (parse (transformTag s)).isNone) t) = true := by
    simp [hbad]
  have hcf : (lines.filter fun s => (parse (transformTag s)).isNone).count t =
      lines.count t := List.count_filter hkeep
  refine ⟨?_, ?_, ?_⟩
  · rw [h2, count_map_pair, hcf, honce]
  · intro v hv
    have := (parse_tags_lines_valid_mem hv).2
    rw [hbad] at this
    exact Option.noConfusion this
  · rw [h2, List.map_map]
    have : (Prod.fst ∘ fun s : String => (s, (none : Option Version))) = id := rfl
    rw [this, List.map_id, hcf, honce]

theorem c6_malformed_tag_handling_witness :
    parse (transformTag "not-a-version") = none ∧
    ((parse_tags_lines ["not-a-version", "v1.0"]).2.count
      ("not-a-version", (none : Option Version)) = 1) ∧
    (∀ v : Version, (v, "not-a-version") ∉ (parse_tags_lines ["not-a-version", "v1.0"]).1) ∧
    (((parse_tags_lines ["not-a-version", "v1.0"]).2.map Prod.fst).count "not-a-version" = 1) :=
  ⟨rfl, c6_malformed_tag_handling ["not-a-version", "v1.0"] "not-a-version" rfl (by decide)⟩

/-- C7 amended: when two raw tags parse to equal versions, the sorted
valid set orders them by the raw tag string ascending (the Python tuple
comparison `(Version, str)` falls through to the string), not by
first-seen order. -/
theorem c7_equal_versions_sorted_by_raw_string (t1 t2 : String) (v1 v2 : Version)
    (h1 : parse (transformTag t1) = some v1) (h2 : parse (transformTag t2) = some v2)
    (heq : verCmp v1 v2 = .eq) (hlt : charListCmp t1.data t2.data = .lt) :
    (parse_tags_lines [t2, t1]).1 = [(v1, t1), (v2, t2)] := by
  simp only [parse_tags_lines, collectTags, h1, h2]
  simp only [sortTags, List.foldl_cons, List.foldl_nil]
  simp [insertTag, tagLt, heq, hlt]

theorem c7_equal_versions_sorted_by_raw_string_witness :
    (parse_tags_lines ["v0.0.0", "v0.0"]).1 =
      [(⟨[0, 0], none, none, none⟩, "v0.0"), (⟨[0, 0, 0], none, none, none⟩, "v0.0.0")] :=
  c7_equal_versions_sorted_by_raw_string "v0.0" "v0.0.0"
    ⟨[0, 0], none, none, none⟩ ⟨[0, 0, 0], none, none, none⟩ rfl rfl rfl rfl

theorem find?_name_append {tags : List (String × String × Option String)}
    {name : String} (h : ∀ e ∈ tags, e.1 ≠ name) (hsh : String) (msg : Option String) :
    (tags ++ [(name, hsh, msg)]).find? (fun e => e.1 == name) = some (name, hsh, msg) := by
  induction tags with
  | nil => simp [List.find?]
  | cons e es ih =>
    have hne : (e.1 == name) = false := by
      simpa using h e (List.mem_cons_self _ _)
    simp only [List.cons_append, List.find?_cons, hne]
    exact ih fun e' he' => h e' (List.mem_cons_of_mem _ he')

/-- C4: when no valid tag parses to the canonical baseline value `0.0`,
the tag phase of `get_src` creates exactly one annotated `v0.0` on the
oldest commit with the fixed message, and the re-run reconciliation
includes the new tag (mapped to the oldest commit's hash). -/
theorem c4_baseline_synthesis (repo : GitRepo) (h0 s0 : String)
    (cs : List (String × String)) (hc : repo.commits = (h0, s0) :: cs)
    (hb : ∀ p ∈ (parse_tags_lines (tagListOutput repo)).1, p.1 ≠ baselineVersion) :
    ∃ tags2 ign2,
      get_src_tags repo =
        .ok ({ repo with tags := repo.tags ++ [("v0.0", h0, some baselineMsg)] },
          tags2, ign2, ign2.map Prod.fst) ∧
      ("v0.0", baselineVersion, some h0) ∈ tags2 := by
  have hparse00 : parse (transformTag "v0.0") = some baselineVersion := rfl
  have hnotin : ∀ e ∈ repo.tags, e.1 ≠ "v0.0" := by
    intro e he heq
    have hmem : "v0.0" ∈ tagListOutput repo := by
      have := List.mem_map_of_mem (fun x : String × String × Option String => x.1) he
      simp only at this
      rw [heq] at this
      exact this
    exact hb _ (parse_tags_lines_valid_of_mem hmem hparse00) rfl
  have hnmem : ¬ "v0.0" ∈ (get_tags repo).1.map Prod.fst := by
    intro hmem
    simp only [get_tags, List.map_map, List.mem_map] at hmem
    obtain ⟨vt, hvt, hfst⟩ := hmem
    have : (vt.1, vt.2) ∈ (parse_tags_lines (tagListOutput repo)).1 := by
      simpa using hvt
    have hp := (parse_tags_lines_valid_mem this).2
    rw [show vt.2 = "v0.0" from hfst] at hp
    rw [hparse00] at hp
    exact hb _ this (by simpa using hp.symm)
  refine ⟨(get_tags { repo with tags := repo.tags ++ [("v0.0", h0, some baselineMsg)] }).1,
    (get_tags { repo with tags := repo.tags ++ [("v0.0", h0, some baselineMsg)] }).2, ?_, ?_⟩
  · simp only [get_src_tags, if_neg hnmem, hc]
  · have hmem2 : "v0.0" ∈
        tagListOutput { repo with tags := repo.tags ++ [("v0.0", h0, some baselineMsg)] } := by
      simp [tagListOutput]
    have hvalid2 := parse_tags_lines_valid_of_mem hmem2 hparse00
    have hhash : get_hash { repo with tags := repo.tags ++ [("v0.0", h0, some baselineMsg)] }
        "v0.0" = some h0 := by
      simp only [get_hash]
      rw [find?_name_append hnotin h0 (some baselineMsg)]
      rfl
    simp only [get_tags, List.mem_map]
    exact ⟨(baselineVersion, "v0.0"), hvalid2, by rw [hhash]⟩

theorem c4_baseline_synthesis_witness :
    ∃ tags2 ign2,
      get_src_tags ⟨[], [("aaa1", "init")], none⟩ =
        .ok (⟨[("v0.0", "aaa1", some baselineMsg)], [("aaa1", "init")], none⟩,
          tags2, ign2, ign2.map Prod.fst) ∧
      ("v0.0", baselineVersion, some "aaa1") ∈ tags2 :=
  c4_baseline_synthesis ⟨[], [("aaa1", "init")], none⟩ "aaa1" "init" [] rfl (by decide)

theorem digitChar_toNat {n : Nat} (h : n < 10) : (digitChar n).toNat = 48 + n := by
  interval_cases n <;> rfl

theorem isDigitC_digitChar {n : Nat} (h : n < 10) : isDigitC (digitChar n) = true := by
  interval_cases n <;> rfl

theorem natDigitsF_ne_nil {f n : Nat} (h : n < f) : natDigitsF f n ≠ [] := by
  induction f generalizing n with
  | zero => omega
  | succ f ih =>
    simp only [natDigitsF]
    split
    · simp
    · simp

theorem natDigitsF_digits {f n : Nat} (h : n < f) :
    ∀ c ∈ natDigitsF f n, isDigitC c = true := by
  induction f generalizing n with
  | zero => omega
  | succ f ih =>
    intro c hc
    simp only [natDigitsF] at hc
    by_cases h10 : n < 10
    · rw [if_pos h10] at hc
      simp only [List.mem_singleton] at hc
      subst hc
      exact isDigitC_digitChar h10
    · rw [if_neg h10] at hc
      rcases List.mem_append.mp hc with h1 | h1
      · have hdiv : n / 10 < f := by
          have := Nat.div_lt_self (show 0 < n by omega) (show 1 < 10 by omega)
          omega
        exact ih hdiv c h1
      · simp only [List.mem_singleton] at h1
        subst h1
        exact isDigitC_digitChar (Nat.mod_lt _ (by omega))

theorem natDigits_ne_nil (n : Nat) : natDigits n ≠ [] :=
  natDigitsF_ne_nil (Nat.lt_succ_self n)

theorem natDigits_digits (n : Nat) : ∀ c ∈ natDigits n, isDigitC c = true :=
  natDigitsF_digits (Nat.lt_succ_self n)

theorem digitsVal_append_singleton (xs : List Char) (c : Char) (acc : Nat) :
    digitsVal acc (xs ++ [c]) = (digitsVal acc xs) * 10 + (c.toNat - 48) := by
  induction xs generalizing acc with
  | nil => rfl
  | cons x xs ih =>
    rw [List.cons_append]
    show digitsVal (acc * 10 + (x.toNat - 48)) (xs ++ [c]) =
      digitsVal acc (x :: xs) * 10 + (c.toNat - 48)
    rw [ih]
    rfl

theorem natDigitsF_succ_lt {f n : Nat} (h10 : n < 10) :
    natDigitsF (f + 1) n = [digitChar n] := by
  simp [natDigitsF, h10]

theorem natDigitsF_succ_ge {f n : Nat} (h10 : ¬ n < 10) :
    natDigitsF (f + 1) n = natDigitsF f (n / 10) ++ [digitChar (n % 10)] := by
  simp [natDigitsF, h10]

theorem digitsVal_natDigitsF {f n : Nat} (acc : Nat) (h : n < f) :
    digitsVal acc (natDigitsF f n) = acc * 10 ^ (natDigitsF f n).length + n := by
  induction f generalizing n acc with
  | zero => omega
  | succ f ih =>
    by_cases h10 : n < 10
    · rw [natDigitsF_succ_lt h10]
      show acc * 10 + ((digitChar n).toNat - 48) =
        acc * 10 ^ ([digitChar n]).length + n
      rw [digitChar_toNat h10, List.length_singleton, pow_one]
      omega
    · have hdiv : n / 10 < f := by
        have := Nat.div_lt_self (show 0 < n by omega) (show 1 < 10 by omega)
        omega
      rw [natDigitsF_succ_ge h10, digitsVal_append_singleton, ih acc hdiv,
        List.length_append, List.length_singleton,
        digitChar_toNat (Nat.mod_lt _ (by omega))]
      have h48 : 48 + n % 10 - 48 = n % 10 := by omega
      rw [h48]
      have hp : 10 ^ ((natDigitsF f (n / 10)).length + 1) =
          10 ^ (natDigitsF f (n / 10)).length * 10 := by
        rw [pow_succ]
      rw [hp]
      calc (acc * 10 ^ (natDigitsF f (n / 10)).length + n / 10) * 10 + n % 10
          = acc * (10 ^ (natDigitsF f (n / 10)).length * 10) +
              (10 * (n / 10) + n % 10) := by ring
        _ = acc * (10 ^ (natDigitsF f (n / 10)).length * 10) + n := by
            rw [Nat.div_add_mod]

theorem digitsVal_natDigits (n : Nat) : digitsVal 0 (natDigits n) = n := by
  have := digitsVal_natDigitsF (f := n + 1) 0 (Nat.lt_succ_self n)
  simpa [natDigits] using this

theorem readNatAux_digits (ds rest : List Char) (acc : Nat)
    (hds : ∀ c ∈ ds, isDigitC c = true)
    (hrest : ∀ c, rest.head? = some c → isDigitC c = false) :
    readNatAux acc (ds ++ rest) = (digitsVal acc ds, rest) := by
  induction ds generalizing acc with
  | nil =>
    cases rest with
    | nil => rfl
    | cons c cs =>
      show readNatAux acc (c :: cs) = (acc, c :: cs)
      rw [show readNatAux acc (c :: cs) =
        if isDigitC c then readNatAux (acc * 10 + (c.toNat - 48)) cs
        else (acc, c :: cs) from rfl]
      rw [if_neg]
      rw [hrest c rfl]
      exact Bool.false_ne_true
  | cons d ds ih =>
    show (if isDigitC d then readNatAux (acc * 10 + (d.toNat - 48)) (ds ++ rest)
      else (acc, d :: (ds ++ rest))) = (digitsVal (acc * 10 + (d.toNat - 48)) ds, rest)
    rw [if_pos (hds d (List.mem_cons_self _ _))]
    exact ih _ fun c hc => hds c (List.mem_cons_of_mem _ hc)

theorem readNum_natDigits (n : Nat) (rest : List Char)
    (hrest : ∀ c, rest.head? = some c → isDigitC c = false) :
    readNum (natDigits n ++ rest) = some (n, rest) := by
  obtain ⟨d, ds, hd⟩ : ∃ d ds, natDigits n = d :: ds := by
    cases h : natDigits n with
    | nil => exact absurd h (natDigits_ne_nil n)
    | cons d ds => exact ⟨d, ds, rfl⟩
  have hdig := natDigits_digits n
  rw [hd] at hdig
  have hval : digitsVal (d.toNat - 48) ds = n := by
    have hv := digitsVal_natDigits n
    rw [hd] at hv
    rw [show digitsVal 0 (d :: ds) = digitsVal (0 * 10 + (d.toNat - 48)) ds from rfl,
      Nat.zero_mul, Nat.zero_add] at hv
    exact hv
  rw [hd]
  show (if isDigitC d then some (readNatAux (d.toNat - 48) (ds ++ rest)) else none) =
    some (n, rest)
  rw [if_pos (hdig d (List.mem_cons_self _ _)),
    readNatAux_digits ds rest _ (fun c hc => hdig c (List.mem_cons_of_mem _ hc)) hrest,
    hval]

theorem natDigits_decomp (m : Nat) :
    ∃ d ds, natDigits m = d :: ds ∧ isDigitC d = true ∧
      (∀ c ∈ ds, isDigitC c = true) ∧ digitsVal (d.toNat - 48) ds = m := by
  obtain ⟨d, ds, hd⟩ : ∃ d ds, natDigits m = d :: ds := by
    cases h : natDigits m with
    | nil => exact absurd h (natDigits_ne_nil m)
    | cons d ds => exact ⟨d, ds, rfl⟩
  have hdig := natDigits_digits m
  rw [hd] at hdig
  refine ⟨d, ds, hd, hdig d (List.mem_cons_self _ _),
    fun c hc => hdig c (List.mem_cons_of_mem _ hc), ?_⟩
  have hv := digitsVal_natDigits m
  rw [hd] at hv
  rw [show digitsVal 0 (d :: ds) = digitsVal (0 * 10 + (d.toNat - 48)) ds from rfl,
    Nat.zero_mul, Nat.zero_add] at hv
  exact hv

theorem isDigitC_vals {c : Char} (h : isDigitC c = true) :
    48 ≤ c.toNat ∧ c.toNat ≤ 57 := by
  simp only [isDigitC, Bool.and_eq_true, decide_eq_true_eq] at h
  exact h

theorem not_space_of_digit {c : Char} (h : isDigitC c = true) : isSpaceC c = false := by
  obtain ⟨h1, h2⟩ := isDigitC_vals h
  simp only [isSpaceC, Bool.or_eq_false_iff, decide_eq_false_iff_not]
  omega

theorem toLowerC_of_digit {c : Char} (h : isDigitC c = true) : toLowerC c = c := by
  obtain ⟨h1, h2⟩ := isDigitC_vals h
  simp only [toLowerC]
  rw [if_neg]
  omega

theorem dropSep_digit {c : Char} (h : isDigitC c = true) (cs : List Char) :
    dropSep (c :: cs) = c :: cs := by
  show (if c = '-' ∨ c = '_' ∨ c = '.' then cs else c :: cs) = c :: cs
  rw [if_neg]
  rintro (rfl | rfl | rfl) <;> exact absurd h (by decide)

theorem relRest_chars (ns : List Nat) :
    ∀ c ∈ relRest ns, c = '.' ∨ isDigitC c = true := by
  induction ns with
  | nil => simp [relRest]
  | cons n ns ih =>
    intro c hc
    simp only [relRest, List.mem_cons, List.mem_append] at hc
    rcases hc with rfl | hc | hc
    · exact Or.inl rfl
    · exact Or.inr (natDigits_digits n c hc)
    · exact ih c hc

theorem parseRelAuxF_cons (f : Nat) (acc : List Nat) (c1 c2 : Char) (cs' : List Char) :
    parseRelAuxF (f + 1) acc (c1 :: c2 :: cs') =
      if c1 = '.' ∧ isDigitC c2 then
        parseRelAuxF f (acc ++ [(readNatAux (c2.toNat - 48) cs').1])
          (readNatAux (c2.toNat - 48) cs').2
      else (acc, c1 :: c2 :: cs') := rfl

theorem parseRelAuxF_rt (ns : List Nat) (p : Nat) :
    ∀ (fuel : Nat) (acc : List Nat), (relRest ns).length < fuel →
      parseRelAuxF fuel acc
          (relRest ns ++ '.' :: 'p' :: 'o' :: 's' :: 't' :: natDigits p) =
        (acc ++ ns, '.' :: 'p' :: 'o' :: 's' :: 't' :: natDigits p) := by
  induction ns with
  | nil =>
    intro fuel acc hf
    cases fuel with
    | zero => omega
    | succ f =>
      show parseRelAuxF (f + 1) acc ('.' :: 'p' :: 'o' :: 's' :: 't' :: natDigits p) = _
      rw [parseRelAuxF_cons, if_neg, List.append_nil]
      intro hcond
      exact absurd hcond.2 (by decide)
  | cons m ns ih =>
    intro fuel acc hf
    obtain ⟨d, ds, hd, hdig, hds, hval⟩ := natDigits_decomp m
    have hlen : (relRest (m :: ns)).length =
        1 + (natDigits m).length + (relRest ns).length := by
      simp [relRest]
      omega
    have hndlen : 1 ≤ (natDigits m).length := by
      rw [hd]
      simp
    cases fuel with
    | zero => omega
    | succ f =>
      show parseRelAuxF (f + 1) acc
        (('.' :: (natDigits m ++ relRest ns)) ++
          '.' :: 'p' :: 'o' :: 's' :: 't' :: natDigits p) = _
      rw [hd]
      simp only [List.cons_append, List.append_assoc]
      rw [parseRelAuxF_cons, if_pos ⟨rfl, hdig⟩]
      rw [readNatAux_digits ds
        (relRest ns ++ '.' :: 'p' :: 'o' :: 's' :: 't' :: natDigits p) _ hds ?hrest]
      case hrest =>
        intro c hc
        cases ns with
        | nil =>
          simp only [relRest, List.nil_append, List.head?] at hc
          cases hc
          decide
        | cons a b =>
          simp only [relRest, List.cons_append, List.head?] at hc
          cases hc
          decide
      rw [hval]
      rw [ih f (acc ++ [m]) (by omega)]
      simp [List.append_assoc]

theorem str_data_append (s t : String) : (s ++ t).data = s.data ++ t.data := rfl

theorem pyJoin_foldl_data (xs : List Nat) (acc : String) :
    (List.foldl (fun a y => a ++ "." ++ y) acc (xs.map natToStr)).data =
      acc.data ++ relRest xs := by
  induction xs generalizing acc with
  | nil => simp [relRest]
  | cons x xs ih =>
    simp only [List.map_cons, List.foldl_cons, relRest]
    rw [ih, str_data_append, str_data_append]
    simp [natToStr, natDigits]

theorem pyJoin_data (x : Nat) (xs : List Nat) :
    (pyJoin "." ((x :: xs).map natToStr)).data = natDigits x ++ relRest xs := by
  simp only [List.map_cons, pyJoin]
  rw [pyJoin_foldl_data]
  rfl

theorem dropWhile_not_space (cs : List Char) (h : ∀ c ∈ cs, isSpaceC c = false) :
    cs.dropWhile isSpaceC = cs := by
  cases cs with
  | nil => rfl
  | cons c cs' => simp [List.dropWhile_cons, h c (List.mem_cons_self _ _)]

theorem strip_of_clean (cs : List Char) (h : ∀ c ∈ cs, isSpaceC c = false) :
    pyStripChars cs = cs := by
  unfold pyStripChars
  rw [dropWhile_not_space cs h, dropWhile_not_space, List.reverse_reverse]
  intro c hc
  exact h c (List.mem_reverse.mp hc)

theorem map_toLowerC_of_clean (cs : List Char) (h : ∀ c ∈ cs, toLowerC c = c) :
    cs.map toLowerC = cs := by
  induction cs with
  | nil => rfl
  | cons c cs' ih =>
    rw [List.map_cons, h c (List.mem_cons_self _ _),
      ih fun c' hc' => h c' (List.mem_cons_of_mem _ hc')]

theorem clean_char {c : Char}
    (h : c = '.' ∨ isDigitC c = true ∨ c = 'p' ∨ c = 'o' ∨ c = 's' ∨ c = 't') :
    isSpaceC c = false ∧ toLowerC c = c := by
  rcases h with rfl | h | rfl | rfl | rfl | rfl
  · exact ⟨by decide, by decide⟩
  · exact ⟨not_space_of_digit h, toLowerC_of_digit h⟩
  · exact ⟨by decide, by decide⟩
  · exact ⟨by decide, by decide⟩
  · exact ⟨by decide, by decide⟩
  · exact ⟨by decide, by decide⟩

theorem parsePre_dotPost (p : Nat) :
    parsePre ('.' :: 'p' :: 'o' :: 's' :: 't' :: natDigits p) = none := rfl

theorem parsePost_dotPost (p : Nat) :
    parsePost ('.' :: 'p' :: 'o' :: 's' :: 't' :: natDigits p) = some (p, []) := by
  obtain ⟨d, ds, hd, hdig, hds, hval⟩ := natDigits_decomp p
  have step0 : parsePost ('.' :: 'p' :: 'o' :: 's' :: 't' :: natDigits p) =
      parsePostWord ('.' :: 'p' :: 'o' :: 's' :: 't' :: natDigits p) := rfl
  have step1 : matchWord postTable
      (dropSep ('.' :: 'p' :: 'o' :: 's' :: 't' :: natDigits p)) =
      some ("post", natDigits p) := rfl
  have h2 : dropSep (natDigits p) = natDigits p := by
    rw [hd]
    exact dropSep_digit hdig ds
  have h3 : readNum (natDigits p) = some (p, []) := by
    have h4 := readNum_natDigits p [] (fun c hc => by simp at hc)
    rwa [List.append_nil] at h4
  rw [step0]
  simp only [parsePostWord, step1, h2, h3]

theorem parseAfterRel_eval (rel : List Nat) (cs : List Char)
    (hpre : parsePre cs = none) (pn : Nat)
    (hpost : parsePost cs = some (pn, [])) :
    parseAfterRel rel cs = some ⟨rel, none, some pn, none⟩ := by
  have hdev : parseDev ([] : List Char) = none := rfl
  simp [parseAfterRel, hpre, hpost, hdev]

theorem relRest_dotPost_head_not_digit (ns : List Nat) (p : Nat) :
    ∀ c, (relRest ns ++ '.' :: 'p' :: 'o' :: 's' :: 't' :: natDigits p).head? = some c →
      isDigitC c = false := by
  intro c hc
  cases ns with
  | nil =>
    simp only [relRest, List.nil_append, List.head?] at hc
    cases hc
    decide
  | cons a b =>
    simp only [relRest, List.cons_append, List.head?] at hc
    cases hc
    decide

theorem parseChars_eq_core (d : Char) (tl : List Char)
    (hclean : ∀ c ∈ d :: tl, isSpaceC c = false ∧ toLowerC c = c)
    (hdv : ¬ d = 'v') :
    parseChars (d :: tl) = parseCore (d :: tl) := by
  have h1 : pyStripChars (d :: tl) = d :: tl :=
    strip_of_clean _ fun c hc => (hclean c hc).1
  have h2 : (d :: tl).map toLowerC = d :: tl :=
    map_toLowerC_of_clean _ fun c hc => (hclean c hc).2
  simp only [parseChars, h1, h2]
  rw [if_neg hdv]

theorem parse_join_string (rs : List Nat) (p : Nat) (h : rs ≠ []) :
    parse (pyJoin "." (rs.map natToStr) ++ ".post" ++ natToStr p) =
      some ⟨rs, none, some p, none⟩ := by
  obtain ⟨r1, rs', rfl⟩ : ∃ r1 rs', rs = r1 :: rs' := by
    cases rs with
    | nil => exact absurd rfl h
    | cons a b => exact ⟨a, b, rfl⟩
  have hdata : (pyJoin "." ((r1 :: rs').map natToStr) ++ ".post" ++ natToStr p).data =
      natDigits r1 ++ (relRest rs' ++ '.' :: 'p' :: 'o' :: 's' :: 't' :: natDigits p) := by
    rw [str_data_append, str_data_append, pyJoin_data]
    show ((natDigits r1 ++ relRest rs') ++ ['.', 'p', 'o', 's', 't']) ++ natDigits p = _
    simp [List.append_assoc]
  obtain ⟨d, ds, hd, hdig, hds, hval⟩ := natDigits_decomp r1
  have hdv : ¬ d = 'v' := by
    intro hEq
    rw [hEq] at hdig
    exact absurd hdig (by decide)
  have hmem : ∀ c ∈ d :: (ds ++ (relRest rs' ++ '.' :: 'p' :: 'o' :: 's' :: 't' :: natDigits p)),
      isSpaceC c = false ∧ toLowerC c = c := by
    intro c hc
    apply clean_char
    rcases List.mem_cons.mp hc with rfl | hc'
    · exact Or.inr (Or.inl hdig)
    rcases List.mem_append.mp hc' with h1 | h1
    · exact Or.inr (Or.inl (hds c h1))
    rcases List.mem_append.mp h1 with h2 | h2
    · rcases relRest_chars rs' c h2 with h3 | h3
      · exact Or.inl h3
      · exact Or.inr (Or.inl h3)
    · simp only [List.mem_cons] at h2
      rcases h2 with rfl | rfl | rfl | rfl | rfl | h3
      · exact Or.inl rfl
      · exact Or.inr (Or.inr (Or.inl rfl))
      · exact Or.inr (Or.inr (Or.inr (Or.inl rfl)))
      · exact Or.inr (Or.inr (Or.inr (Or.inr (Or.inl rfl))))
      · exact Or.inr (Or.inr (Or.inr (Or.inr (Or.inr rfl))))
      · exact Or.inr (Or.inl (natDigits_digits p c h3))
  have hrn : readNum (d :: (ds ++ (relRest rs' ++ '.' :: 'p' :: 'o' :: 's' :: 't' :: natDigits p))) =
      some (r1, relRest rs' ++ '.' :: 'p' :: 'o' :: 's' :: 't' :: natDigits p) := by
    have hx := readNum_natDigits r1
      (relRest rs' ++ '.' :: 'p' :: 'o' :: 's' :: 't' :: natDigits p)
      (relRest_dotPost_head_not_digit rs' p)
    rw [hd] at hx
    simpa [List.cons_append] using hx
  show parseChars (pyJoin "." ((r1 :: rs').map natToStr) ++ ".post" ++ natToStr p).data =
    some ⟨r1 :: rs', none, some p, none⟩
  rw [hdata, hd]
  simp only [List.cons_append]
  rw [parseChars_eq_core d _ hmem hdv]
  simp only [parseCore, hrn]
  have hfuel : (relRest rs').length <
      (relRest rs' ++ '.' :: 'p' :: 'o' :: 's' :: 't' :: natDigits p).length + 1 := by
    simp [List.length_append]
    omega
  rw [parseRelAuxF_rt rs' p _ [r1] hfuel]
  show parseAfterRel ([r1] ++ rs') ('.' :: 'p' :: 'o' :: 's' :: 't' :: natDigits p) = _
  rw [parseAfterRel_eval ([r1] ++ rs') _ (parsePre_dotPost p) p (parsePost_dotPost p)]
  rfl

theorem version_tuple_reverse (a : Version) :
    (version_tuple a).reverse = a.post :: a.release.reverse.map some := by
  simp [version_tuple, List.reverse_append, List.map_reverse]

theorem combineAux_cons (x y : Option Nat) (xs ys : List (Option Nat)) :
    combineAux (x :: xs) (y :: ys) =
      if x = none ∧ y = none then combineAux xs ys
      else (x.getD 0 + y.getD 0) :: combineAux xs ys := rfl

theorem combineAux_map_some (u v : List Nat) :
    combineAux (u.map some) (v.map some) = List.zipWith (· + ·) u v := by
  induction u generalizing v with
  | nil => cases v <;> rfl
  | cons x xs ih =>
    cases v with
    | nil => rfl
    | cons y ys =>
      rw [List.map_cons, List.map_cons, combineAux_cons, if_neg (by simp), ih]
      rfl

theorem joinVo_eq (a b : Version) :
    joinVo a b =
      (if a.post = none ∧ b.post = none then []
       else [a.post.getD 0 + b.post.getD 0]) ++
      List.zipWith (· + ·)
        (a.release.reverse ++
          List.replicate (max a.release.length b.release.length - a.release.length) 0)
        (b.release.reverse ++
          List.replicate (max a.release.length b.release.length - b.release.length) 0) := by
  simp only [joinVo]
  rw [version_tuple_reverse, version_tuple_reverse]
  have hla : (a.post :: a.release.reverse.map some).length = a.release.length + 1 := by
    simp
  have hlb : (b.post :: b.release.reverse.map some).length = b.release.length + 1 := by
    simp
  rw [hla, hlb]
  have hmax : max (a.release.length + 1) (b.release.length + 1) =
      max a.release.length b.release.length + 1 := by
    omega
  rw [hmax, Nat.succ_sub_succ, Nat.succ_sub_succ]
  simp only [List.cons_append]
  rw [show (List.replicate (max a.release.length b.release.length - a.release.length)
      (some 0 : Option Nat)) =
      (List.replicate (max a.release.length b.release.length - a.release.length)
        (0 : Nat)).map some from (List.map_replicate ..).symm,
    show (List.replicate (max a.release.length b.release.length - b.release.length)
      (some 0 : Option Nat)) =
      (List.replicate (max a.release.length b.release.length - b.release.length)
        (0 : Nat)).map some from (List.map_replicate ..).symm,
    ← List.map_append, ← List.map_append, combineAux_cons, combineAux_map_some]
  by_cases hpp : a.post = none ∧ b.post = none
  · rw [if_pos hpp, if_pos hpp, List.nil_append]
  · rw [if_neg hpp, if_neg hpp]
    rfl

/-- C8 amended: for parser-valid inputs the composition is defined
except in the both-single-component-no-post corner: whenever either
input carries a post-release or either release has at least two
components, `version_join` returns normally. -/
theorem c8_join_defined (a b : Version)
    (ha : a.release ≠ []) (hb : b.release ≠ [])
    (h : a.post ≠ none ∨ b.post ≠ none ∨
      2 ≤ a.release.length ∨ 2 ≤ b.release.length) :
    (version_join a b).isSome = true := by
  have h1 := Nat.le_max_left a.release.length b.release.length
  have h2 := Nat.le_max_right a.release.length b.release.length
  have hpos : 1 ≤ a.release.length := List.length_pos.mpr ha
  have hlen2 : 2 ≤ (joinVo a b).length := by
    rw [joinVo_eq, List.length_append, List.length_zipWith, List.length_append,
      List.length_append, List.length_reverse, List.length_reverse,
      List.length_replicate, List.length_replicate]
    by_cases hpp : a.post = none ∧ b.post = none
    · rw [if_pos hpp]
      have hM2 : 2 ≤ max a.release.length b.release.length := by
        rcases h with h | h | h | h
        · exact absurd hpp.1 h
        · exact absurd hpp.2 h
        · omega
        · omega
      simp only [List.length_nil]
      omega
    · rw [if_neg hpp]
      simp only [List.length_cons, List.length_nil]
      omega
  cases hvo : joinVo a b with
  | nil => rw [hvo] at hlen2; simp at hlen2
  | cons v0 vrest =>
    cases vrest with
    | nil => rw [hvo] at hlen2; simp at hlen2
    | cons w tl =>
      have hv2 : version_join a b =
          parse (pyJoin "." ((w :: tl).reverse.map natToStr) ++ ".post" ++ natToStr v0) := by
        unfold version_join
        rw [hvo]
      rw [hv2, parse_join_string ((w :: tl).reverse) v0 (by simp)]
      rfl

theorem c8_join_defined_witness :
    (⟨[1], none, none, none⟩ : Version).release ≠ [] ∧
    (version_join ⟨[1], none, none, none⟩ ⟨[3, 4, 5], none, none, none⟩).isSome = true :=
  ⟨by decide, c8_join_defined ⟨[1], none, none, none⟩ ⟨[3, 4, 5], none, none, none⟩
    (by decide) (by decide) (by decide)⟩

theorem parse_post_only (v0 : Nat) : parse ("" ++ ".post" ++ natToStr v0) = none := by
  have hdata : ("" ++ ".post" ++ natToStr v0).data =
      '.' :: 'p' :: 'o' :: 's' :: 't' :: natDigits v0 := rfl
  show parseChars ("" ++ ".post" ++ natToStr v0).data = none
  rw [hdata]
  have hmem : ∀ c ∈ '.' :: 'p' :: 'o' :: 's' :: 't' :: natDigits v0,
      isSpaceC c = false ∧ toLowerC c = c := by
    intro c hc
    apply clean_char
    simp only [List.mem_cons] at hc
    rcases hc with rfl | rfl | rfl | rfl | rfl | h3
    · exact Or.inl rfl
    · exact Or.inr (Or.inr (Or.inl rfl))
    · exact Or.inr (Or.inr (Or.inr (Or.inl rfl)))
    · exact Or.inr (Or.inr (Or.inr (Or.inr (Or.inl rfl))))
    · exact Or.inr (Or.inr (Or.inr (Or.inr (Or.inr rfl))))
    · exact Or.inr (Or.inl (natDigits_digits v0 c h3))
  rw [parseChars_eq_core '.' _ hmem (by decide)]
  rfl

theorem head_of_reverse_pad (r : List Nat) (k x : Nat) (A' : List Nat)
    (h : r.reverse ++ List.replicate k 0 = x :: A') :
    x = r.getLastD 0 := by
  cases hr : r.reverse with
  | nil =>
    have hrnil : r = [] := by
      have := congrArg List.reverse hr
      simpa using this
    rw [hr, List.nil_append] at h
    cases k with
    | zero => simp at h
    | succ k' =>
      rw [List.replicate_succ] at h
      injection h with h1 _
      rw [hrnil]
      exact h1.symm
  | cons z zs =>
    rw [hr, List.cons_append] at h
    injection h with h1 _
    have hgl : r.getLast? = some z := by
      rw [← List.head?_reverse, hr]
      rfl
    have h2 : r.getLastD 0 = z := by
      rw [List.getLastD_eq_getLast?, hgl]
      rfl
    rw [h2, ← h1]

/-- C10: whenever `version_join` returns, the result carries a
post-release component, and when neither input has one the post value
is the first remaining summed element — the sum of the last release
components — rather than 0. -/
theorem c10_result_always_post (a b : Version) (v : Version)
    (h : version_join a b = some v) :
    v.post ≠ none ∧
    (a.post = none → b.post = none →
      v.post = some (a.release.getLastD 0 + b.release.getLastD 0)) := by
  cases hvo : joinVo a b with
  | nil =>
    have hv2 : version_join a b = none := by
      unfold version_join
      rw [hvo]
    rw [hv2] at h
    exact absurd h (by simp)
  | cons v0 vrest =>
    have hv2 : version_join a b =
        parse (pyJoin "." (vrest.reverse.map natToStr) ++ ".post" ++ natToStr v0) := by
      unfold version_join
      rw [hvo]
    rw [hv2] at h
    cases vrest with
    | nil =>
      rw [show pyJoin "." (([] : List Nat).reverse.map natToStr) = "" from rfl,
        parse_post_only v0] at h
      exact absurd h (by simp)
    | cons w tl =>
      rw [parse_join_string ((w :: tl).reverse) v0 (by simp)] at h
      injection h with h1
      constructor
      · rw [← h1]
        simp
      · intro hpa hpb
        have hj := joinVo_eq a b
        rw [hvo, if_pos ⟨hpa, hpb⟩, List.nil_append] at hj
        cases hA : a.release.reverse ++
            List.replicate (max a.release.length b.release.length - a.release.length) 0 with
        | nil => rw [hA] at hj; simp at hj
        | cons x A' =>
          cases hB : b.release.reverse ++
              List.replicate (max a.release.length b.release.length - b.release.length) 0 with
          | nil => rw [hA, hB] at hj; simp at hj
          | cons y B' =>
            rw [hA, hB, List.zipWith_cons_cons] at hj
            have hv0 : v0 = x + y := by
              injection hj
            have hx := head_of_reverse_pad a.release _ x A' hA
            have hy := head_of_reverse_pad b.release _ y B' hB
            rw [← h1, hv0, hx, hy]

theorem c10_result_always_post_witness :
    version_join ⟨[1, 2], none, none, none⟩ ⟨[3, 4, 5], none, none, none⟩ =
      some ⟨[3, 5], none, some 7, none⟩ ∧
    (⟨[3, 5], none, some 7, none⟩ : Version).post ≠ none ∧
    (⟨[3, 5], none, some 7, none⟩ : Version).post =
      some ((⟨[1, 2], none, none, none⟩ : Version).release.getLastD 0 +
        (⟨[3, 4, 5], none, none, none⟩ : Version).release.getLastD 0) :=
  ⟨rfl,
    (c10_result_always_post ⟨[1, 2], none, none, none⟩ ⟨[3, 4, 5], none, none, none⟩
      ⟨[3, 5], none, some 7, none⟩ rfl).1,
    (c10_result_always_post ⟨[1, 2], none, none, none⟩ ⟨[3, 4, 5], none, none, none⟩
      ⟨[3, 5], none, some 7, none⟩ rfl).2 rfl rfl⟩

end UpdatePy
